import Mathlib

/-!
Shallow embedding of the OT core of src/ot.ts and of the push handler of
src/server.ts (MKJM2/cs2620-final-prototype).

Components mirror the wire form of src/ot.ts: a positive number becomes
Comp.retain, a string becomes Comp.insert (strings are List Char), a
negative number becomes Comp.delete of its absolute value. Documents are
List Char; a thrown JS error is Option.none.
-/

/-- One entry of the ops array of a TextOperation (src/ot.ts line 9).
The source stores positive numbers (retain), strings (insert) and negative
numbers (delete); builder-made arrays never hold zero-length entries, but
the type also represents the zero values so that the embedded algorithms can
mirror the source's value-based branching (isRetain/isDelete require a
strictly positive length). -/
inductive Comp where
  | retain (n : Nat)
  | insert (s : List Char)
  | delete (n : Nat)
deriving DecidableEq, Repr

/-- Number of base-document characters a component consumes: the source adds
retain and delete lengths into baseLength (src/ot.ts lines 113, 154). -/
def Comp.baseLen : Comp → Nat
  | .retain n => n
  | .insert _ => 0
  | .delete n => n

/-- Number of target-document characters a component produces: the source
adds retain and insert lengths into targetLength (src/ot.ts lines 114, 129). -/
def Comp.targetLen : Comp → Nat
  | .retain n => n
  | .insert s => s.length
  | .delete _ => 0

/-- Sum of the base lengths of a component list. -/
def baseSum (l : List Comp) : Nat := (l.map Comp.baseLen).sum

/-- Sum of the target lengths of a component list. -/
def targetSum (l : List Comp) : Nat := (l.map Comp.targetLen).sum

/-- Whether a component is one the builder drops on arrival: a retain or
delete of 0, or an empty insert (src/ot.ts lines 67-75). -/
def compZero : Comp → Bool
  | .retain n => n = 0
  | .insert s => s.isEmpty
  | .delete n => n = 0

/-- The cursor walk of TextOperation.apply (src/ot.ts lines 219-238),
phrased on the suffix of the document the cursor has not consumed yet.
A retain checks the bound docIndex + op > doc.length exactly as the source
does. The source does not bound-check a delete, but once its cursor passes
doc.length every later retain fails its bound and the final
docIndex === doc.length check fails, so the walk always ends in an error;
the embedding therefore refuses an overrunning delete at once, which gives
the same Option-level result. The final case enforces the source's
"Operation did not consume the entire document" check. -/
def applyGo : List Comp → List Char → Option (List Char)
  | [], d => if d = [] then some [] else none
  | .retain n :: t, d =>
      if n ≤ d.length then (applyGo t (d.drop n)).map (fun r => d.take n ++ r)
      else none
  | .insert s :: t, d => (applyGo t d).map (fun r => s ++ r)
  | .delete n :: t, d => if n ≤ d.length then applyGo t (d.drop n) else none

/-- The TextOperation value class of src/ot.ts (lines 44-50): the ops array
and the two running lengths the builder maintains. -/
structure TextOperation where
  ops : List Comp
  baseLength : Nat
  targetLength : Nat
deriving DecidableEq, Repr

/-- A freshly constructed TextOperation (src/ot.ts lines 46-50). -/
def TextOperation.empty : TextOperation := ⟨[], 0, 0⟩

/-- TextOperation.addOp (src/ot.ts lines 66-98): append a component to the
end of the ops array, dropping zero-length components, merging a component
into a last component of the same kind, and handling a delete arriving after
an insert exactly as the source writes it: when the entry before the insert
is itself an insert, merge the two inserts and overwrite the slot before the
tail with the delete; otherwise duplicate the tail insert and overwrite the
old tail slot with the delete, so the array ends with ..., delete, insert.
Lists of length three or more delegate to their tail, since the source only
inspects the last two entries. -/
def addOp (ops : List Comp) (c : Comp) : List Comp :=
  if compZero c then ops else
  match ops, c with
  | [], c => [c]
  | [.retain m], .retain n => [.retain (m + n)]
  | [.insert s], .insert u => [.insert (s ++ u)]
  | [.delete m], .delete n => [.delete (m + n)]
  | [.insert s], .delete n => [.delete n, .insert s]
  | [b], c => [b, c]
  | [a, .retain m], .retain n => [a, .retain (m + n)]
  | [a, .insert s], .insert u => [a, .insert (s ++ u)]
  | [a, .delete m], .delete n => [a, .delete (m + n)]
  | [.insert s, .insert u], .delete n => [.insert (s ++ u), .delete n]
  | [a, .insert s], .delete n => [a, .delete n, .insert s]
  | [a, b], c => [a, b, c]
  | x :: rest, c => x :: addOp rest c

/-- TextOperation.retain (src/ot.ts lines 105-117). The argument is a Nat:
the source throws on negative or non-integer input before touching state,
so those calls produce no operation. A zero retain returns the operation
unchanged. -/
def TextOperation.retain (o : TextOperation) (n : Nat) : TextOperation :=
  if n = 0 then o else
  { ops := addOp o.ops (.retain n)
    baseLength := o.baseLength + n
    targetLength := o.targetLength + n }

/-- TextOperation.insert (src/ot.ts lines 124-132). An empty insert returns
the operation unchanged. -/
def TextOperation.insert (o : TextOperation) (s : List Char) : TextOperation :=
  if s = [] then o else
  { ops := addOp o.ops (.insert s)
    baseLength := o.baseLength
    targetLength := o.targetLength + s.length }

/-- TextOperation.delete (src/ot.ts lines 139-157), for the integer form of
the argument (the string form only contributes its length). -/
def TextOperation.delete (o : TextOperation) (n : Nat) : TextOperation :=
  if n = 0 then o else
  { ops := addOp o.ops (.delete n)
    baseLength := o.baseLength + n
    targetLength := o.targetLength }

/-- One chained builder call: the three mutating methods of the builder. -/
def buildStep (o : TextOperation) : Comp → TextOperation
  | .retain n => o.retain n
  | .insert s => o.insert s
  | .delete n => o.delete n

/-- The operation produced by a sequence of builder calls on a fresh
TextOperation, e.g. build [.retain 1, .insert s] embeds
new TextOperation().retain(1).insert(s). -/
def build (steps : List Comp) : TextOperation :=
  steps.foldl buildStep .empty

/-- TextOperation.apply (src/ot.ts lines 212-250): the initial
doc.length === baseLength check, then the cursor walk. -/
def TextOperation.apply (o : TextOperation) (doc : List Char) : Option (List Char) :=
  if doc.length = o.baseLength then applyGo o.ops doc else none

/-- The per-component emissions of TextOperation.invert (src/ot.ts lines
266-278): retains are kept, an insert becomes a delete of its length, a
delete becomes an insert of the deleted substring of the original document. -/
def invertSteps : List Comp → List Char → List Comp
  | [], _ => []
  | .retain n :: t, d => .retain n :: invertSteps t (d.drop n)
  | .insert s :: t, d => .delete s.length :: invertSteps t d
  | .delete n :: t, d => .insert (d.take n) :: invertSteps t (d.drop n)

/-- TextOperation.invert (src/ot.ts lines 257-280): the length precondition,
then the inverse assembled through the builder methods. -/
def TextOperation.invert (o : TextOperation) (doc : List Char) : Option TextOperation :=
  if doc.length = o.baseLength then some (build (invertSteps o.ops doc)) else none

/-- Termination measure for the compose and transform walks: each list
element counts one plus its retained or deleted length, since the loops
shrink a head in place before shifting it. -/
def opsWeight : List Comp → Nat
  | [] => 0
  | .retain n :: t => n + 1 + opsWeight t
  | .insert _ :: t => 1 + opsWeight t
  | .delete n :: t => n + 1 + opsWeight t

/-- The while loop of TextOperation.compose (src/ot.ts lines 296-385),
returning the components emitted to the composed accumulator in order
(none embeds a thrown error). The source emits an insert head of the first
operation at once, then an insert head of the second, then requires both
heads to exist, then pairs retains and deletes by Math.min, shrinking the
longer head in place; a head that is a number 0 satisfies neither isRetain
nor isDelete and falls into the unreachable-state throw. -/
def composeOps : List Comp → List Comp → Option (List Comp)
  | .insert s :: t1, l2 => (composeOps t1 l2).map (fun e => .insert s :: e)
  | [], [] => some []
  | [], .insert s :: t2 => (composeOps [] t2).map (fun e => .insert s :: e)
  | [], .retain _ :: _ => none
  | [], .delete _ :: _ => none
  | .retain m1 :: t1, .insert s :: t2 =>
      (composeOps (.retain m1 :: t1) t2).map (fun e => .insert s :: e)
  | .delete m1 :: t1, .insert s :: t2 =>
      (composeOps (.delete m1 :: t1) t2).map (fun e => .insert s :: e)
  | .retain _ :: _, [] => none
  | .delete _ :: _, [] => none
  | .retain m1 :: t1, .retain m2 :: t2 =>
      if m1 = 0 ∨ m2 = 0 then none
      else if m2 < m1 then
        (composeOps (.retain (m1 - m2) :: t1) t2).map (fun e => .retain m2 :: e)
      else if m1 < m2 then
        (composeOps t1 (.retain (m2 - m1) :: t2)).map (fun e => .retain m1 :: e)
      else (composeOps t1 t2).map (fun e => .retain m1 :: e)
  | .delete m1 :: t1, .delete m2 :: t2 =>
      if m1 = 0 ∨ m2 = 0 then none
      else if m2 < m1 then
        (composeOps (.delete (m1 - m2) :: t1) t2).map (fun e => .delete m2 :: e)
      else if m1 < m2 then
        (composeOps t1 (.delete (m2 - m1) :: t2)).map (fun e => .delete m1 :: e)
      else (composeOps t1 t2).map (fun e => .delete m1 :: e)
  | .delete m1 :: t1, .retain m2 :: t2 =>
      if m1 = 0 ∨ m2 = 0 then none
      else if m2 < m1 then
        (composeOps (.delete (m1 - m2) :: t1) t2).map (fun e => .delete m2 :: e)
      else if m1 < m2 then
        (composeOps t1 (.retain (m2 - m1) :: t2)).map (fun e => .delete m1 :: e)
      else (composeOps t1 t2).map (fun e => .delete m1 :: e)
  | .retain m1 :: t1, .delete m2 :: t2 =>
      if m1 = 0 ∨ m2 = 0 then none
      else if m2 < m1 then
        (composeOps (.retain (m1 - m2) :: t1) t2).map (fun e => .delete m2 :: e)
      else if m1 < m2 then
        (composeOps t1 (.delete (m2 - m1) :: t2)).map (fun e => .delete m1 :: e)
      else (composeOps t1 t2).map (fun e => .delete m1 :: e)
termination_by l1 l2 => opsWeight l1 + opsWeight l2
decreasing_by all_goals (simp [opsWeight]; try omega)

/-- TextOperation.compose (src/ot.ts lines 289-386): the
targetLength === other.baseLength precondition, then the walk, with the
emitted components fed through the builder methods of the composed result. -/
def TextOperation.compose (o other : TextOperation) : Option TextOperation :=
  if o.targetLength = other.baseLength then (composeOps o.ops other.ops).map build
  else none

/-- The while loop of TextOperation.transform (src/ot.ts lines 414-513),
returning the components emitted to op1Prime and to op2Prime in order.
An insert head of the first operation goes first (the insertion priority of
op1), pairs of retains and deletes proceed by Math.min, and a head that is
the number 0 falls into the incompatible-operations throw. -/
def transformOps : List Comp → List Comp → Option (List Comp × List Comp)
  | .insert s :: t1, l2 =>
      (transformOps t1 l2).map (fun p => (.insert s :: p.1, .retain s.length :: p.2))
  | [], [] => some ([], [])
  | [], .insert s :: t2 =>
      (transformOps [] t2).map (fun p => (.retain s.length :: p.1, .insert s :: p.2))
  | [], .retain _ :: _ => none
  | [], .delete _ :: _ => none
  | .retain m1 :: t1, .insert s :: t2 =>
      (transformOps (.retain m1 :: t1) t2).map
        (fun p => (.retain s.length :: p.1, .insert s :: p.2))
  | .delete m1 :: t1, .insert s :: t2 =>
      (transformOps (.delete m1 :: t1) t2).map
        (fun p => (.retain s.length :: p.1, .insert s :: p.2))
  | .retain _ :: _, [] => none
  | .delete _ :: _, [] => none
  | .retain m1 :: t1, .retain m2 :: t2 =>
      if m1 = 0 ∨ m2 = 0 then none
      else if m2 < m1 then
        (transformOps (.retain (m1 - m2) :: t1) t2).map
          (fun p => (.retain m2 :: p.1, .retain m2 :: p.2))
      else if m1 < m2 then
        (transformOps t1 (.retain (m2 - m1) :: t2)).map
          (fun p => (.retain m1 :: p.1, .retain m1 :: p.2))
      else (transformOps t1 t2).map (fun p => (.retain m1 :: p.1, .retain m1 :: p.2))
  | .delete m1 :: t1, .delete m2 :: t2 =>
      if m1 = 0 ∨ m2 = 0 then none
      else if m2 < m1 then transformOps (.delete (m1 - m2) :: t1) t2
      else if m1 < m2 then transformOps t1 (.delete (m2 - m1) :: t2)
      else transformOps t1 t2
  | .delete m1 :: t1, .retain m2 :: t2 =>
      if m1 = 0 ∨ m2 = 0 then none
      else if m2 < m1 then
        (transformOps (.delete (m1 - m2) :: t1) t2).map
          (fun p => (.delete m2 :: p.1, p.2))
      else if m1 < m2 then
        (transformOps t1 (.retain (m2 - m1) :: t2)).map
          (fun p => (.delete m1 :: p.1, p.2))
      else (transformOps t1 t2).map (fun p => (.delete m1 :: p.1, p.2))
  | .retain m1 :: t1, .delete m2 :: t2 =>
      if m1 = 0 ∨ m2 = 0 then none
      else if m2 < m1 then
        (transformOps (.retain (m1 - m2) :: t1) t2).map
          (fun p => (p.1, .delete m2 :: p.2))
      else if m1 < m2 then
        (transformOps t1 (.delete (m2 - m1) :: t2)).map
          (fun p => (p.1, .delete m1 :: p.2))
      else (transformOps t1 t2).map (fun p => (p.1, .delete m1 :: p.2))
termination_by l1 l2 => opsWeight l1 + opsWeight l2
decreasing_by all_goals (simp [opsWeight]; try omega)

/-- TextOperation.transform (src/ot.ts lines 396-516): the equal-baseLength
precondition, then the walk, each side assembled through the builder. -/
def TextOperation.transform (op1 op2 : TextOperation) :
    Option (TextOperation × TextOperation) :=
  if op1.baseLength = op2.baseLength then
    (transformOps op1.ops op2.ops).map (fun p => (build p.1, build p.2))
  else none

/-- A value of a decoded JSON array entry as fromJSON sees it: a number
(kept as a rational so that non-integer numbers are representable), a
string, or a value of any other type. -/
inductive JsonComp where
  | num (q : ℚ)
  | str (s : List Char)
  | other
deriving DecidableEq

/-- The loop of TextOperation.fromJSON (src/ot.ts lines 523-538): a positive
number goes to retain (which throws on a non-integer), a string to insert, a
negative number to delete (which throws on a non-integer), anything else —
including the number 0 — throws. -/
def fromJSONGo (o : TextOperation) : List JsonComp → Option TextOperation
  | [] => some o
  | .num q :: t =>
      if 0 < q then (if q.den = 1 then fromJSONGo (o.retain q.num.toNat) t else none)
      else if q < 0 then
        (if q.den = 1 then fromJSONGo (o.delete (-q.num).toNat) t else none)
      else none
  | .str s :: t => fromJSONGo (o.insert s) t
  | .other :: _ => none

/-- TextOperation.fromJSON (src/ot.ts lines 523-538). -/
def TextOperation.fromJSON (l : List JsonComp) : Option TextOperation :=
  fromJSONGo .empty l

/-- Whether an array entry is one fromJSON accepts: a non-zero integer
number or a string. -/
def validWire : JsonComp → Bool
  | .num q => q ≠ 0 && q.den = 1
  | .str _ => true
  | .other => false

/-- Whether two components are of the same kind (both retain, both insert
or both delete). -/
def sameKind : Comp → Comp → Bool
  | .retain _, .retain _ => true
  | .insert _, .insert _ => true
  | .delete _, .delete _ => true
  | _, _ => false

/-- No two adjacent components of the same kind. -/
def noAdjacentSame : List Comp → Bool
  | a :: b :: t => !sameKind a b && noAdjacentSame (b :: t)
  | _ => true

/-- No delete component immediately followed by an insert component. -/
def noDeleteThenInsert : List Comp → Bool
  | .delete _ :: .insert _ :: _ => false
  | _ :: t => noDeleteThenInsert t
  | [] => true

/-- The canonical form the class documentation of src/ot.ts (lines 38-43)
promises: no zero-length components, no same-kind adjacents, and no delete
immediately followed by an insert. -/
def canonical (l : List Comp) : Bool :=
  l.all (fun c => !compZero c) && noAdjacentSame l && noDeleteThenInsert l

/-- The mutable document state of src/server.ts (lines 50-53): the document
content, the current revision and the applied-operation history. -/
structure ServerState where
  documentState : List Char
  currentRevision : Nat
  operationHistory : List TextOperation
deriving DecidableEq

/-- What the push handler sends back to the originating socket: an ack with
the new revision, or an error message. -/
inductive PushOutcome where
  | ack (newRevision : Nat)
  | err
deriving DecidableEq

/-- The transform loop of the push handler (src/server.ts lines 141-161):
each historical operation first passes the explicit baseLength consistency
check (a mismatch throws), then the client op is replaced by the first
component of the transform result. -/
def transformLoop : TextOperation → List TextOperation → Option TextOperation
  | op, [] => some op
  | op, h :: t =>
      if op.baseLength = h.baseLength then
        match TextOperation.transform op h with
        | some p => transformLoop p.1 t
        | none => none
      else none

/-- The push handler of src/server.ts (lines 122-199): decode the wire op,
validate the client revision, transform against the concurrent history
suffix, apply, and only then append to the history and bump the revision;
every thrown error is caught and answered with an Error message, leaving the
state untouched. -/
def pushHandler (st : ServerState) (clientRevision : Int) (wire : List JsonComp) :
    ServerState × PushOutcome :=
  match TextOperation.fromJSON wire with
  | none => (st, .err)
  | some clientOp =>
    if clientRevision < 0 ∨ (st.currentRevision : Int) < clientRevision then (st, .err)
    else
      match transformLoop clientOp (st.operationHistory.drop clientRevision.toNat) with
      | none => (st, .err)
      | some transformedOp =>
        match transformedOp.apply st.documentState with
        | none => (st, .err)
        | some newDoc =>
          (⟨newDoc, st.currentRevision + 1, st.operationHistory ++ [transformedOp]⟩,
            .ack (st.currentRevision + 1))

/-- The server state at start-up (src/server.ts lines 50-53): empty
document, revision 0, empty history. -/
def serverInit : ServerState := ⟨[], 0, []⟩

/-- A sequence of pushes processed in arrival order. -/
def processPushes (st : ServerState) (msgs : List (Int × List JsonComp)) : ServerState :=
  msgs.foldl (fun s m => (pushHandler s m.1 m.2).1) st

/-- The document obtained by applying a history in order to an initial
content; none when some entry fails to apply. -/
def reconstruct (init : List Char) (hist : List TextOperation) : Option (List Char) :=
  hist.foldl (fun d op => d.bind op.apply) (some init)

theorem applyGo_nil (d : List Char) :
    applyGo [] d = if d = [] then some [] else none := rfl

theorem applyGo_retain (n : Nat) (t : List Comp) (d : List Char) :
    applyGo (.retain n :: t) d =
      if n ≤ d.length then (applyGo t (d.drop n)).map (fun r => d.take n ++ r)
      else none := rfl

theorem applyGo_insert (s : List Char) (t : List Comp) (d : List Char) :
    applyGo (.insert s :: t) d = (applyGo t d).map (fun r => s ++ r) := rfl

theorem applyGo_delete (n : Nat) (t : List Comp) (d : List Char) :
    applyGo (.delete n :: t) d =
      if n ≤ d.length then applyGo t (d.drop n) else none := rfl

theorem baseSum_nil : baseSum [] = 0 := rfl

theorem baseSum_cons (c : Comp) (t : List Comp) :
    baseSum (c :: t) = c.baseLen + baseSum t := by
  simp [baseSum]

theorem targetSum_nil : targetSum [] = 0 := rfl

theorem targetSum_cons (c : Comp) (t : List Comp) :
    targetSum (c :: t) = c.targetLen + targetSum t := by
  simp [targetSum]

theorem baseSum_append (l1 l2 : List Comp) :
    baseSum (l1 ++ l2) = baseSum l1 + baseSum l2 := by
  simp [baseSum]

theorem targetSum_append (l1 l2 : List Comp) :
    targetSum (l1 ++ l2) = targetSum l1 + targetSum l2 := by
  simp [targetSum]

theorem applyGo_length {l : List Comp} {d r : List Char}
    (h : applyGo l d = some r) : d.length = baseSum l ∧ r.length = targetSum l := by
  induction l generalizing d r with
  | nil =>
      rw [applyGo_nil] at h
      split at h
      · rename_i hd
        obtain rfl := Option.some_injective _ h
        subst hd
        simp [baseSum_nil, targetSum_nil]
      · exact absurd h (by simp)
  | cons c t ih =>
      cases c with
      | retain n =>
          rw [applyGo_retain] at h
          split at h
          · rename_i hn
            obtain ⟨r0, hr0, rfl⟩ := Option.map_eq_some'.mp h
            obtain ⟨h1, h2⟩ := ih hr0
            simp only [List.length_drop] at h1
            constructor
            · rw [baseSum_cons]; simp [Comp.baseLen]; omega
            · rw [targetSum_cons]
              simp [Comp.targetLen, List.length_take]
              omega
          · exact absurd h (by simp)
      | insert s =>
          rw [applyGo_insert] at h
          obtain ⟨r0, hr0, rfl⟩ := Option.map_eq_some'.mp h
          obtain ⟨h1, h2⟩ := ih hr0
          constructor
          · rw [baseSum_cons]; simpa [Comp.baseLen] using h1
          · rw [targetSum_cons]; simp [Comp.targetLen]; omega
      | delete n =>
          rw [applyGo_delete] at h
          split at h
          · rename_i hn
            obtain ⟨h1, h2⟩ := ih h
            simp only [List.length_drop] at h1
            constructor
            · rw [baseSum_cons]; simp [Comp.baseLen]; omega
            · rw [targetSum_cons]; simpa [Comp.targetLen] using h2
          · exact absurd h (by simp)

theorem applyGo_total (l : List Comp) {d : List Char} (h : d.length = baseSum l) :
    ∃ r, applyGo l d = some r ∧ r.length = targetSum l := by
  induction l generalizing d with
  | nil =>
      have hd : d = [] := by
        rw [baseSum_nil] at h; exact List.length_eq_zero.mp h
      subst hd
      exact ⟨[], rfl, rfl⟩
  | cons c t ih =>
      cases c with
      | retain n =>
          rw [baseSum_cons] at h
          simp only [Comp.baseLen] at h
          have hn : n ≤ d.length := by omega
          obtain ⟨r0, hr0, hlen⟩ := ih (show (d.drop n).length = baseSum t by simp; omega)
          refine ⟨d.take n ++ r0, ?_, ?_⟩
          · rw [applyGo_retain, if_pos hn, hr0]; rfl
          · rw [targetSum_cons]
            simp [Comp.targetLen, List.length_take]
            omega
      | insert s =>
          rw [baseSum_cons] at h
          simp only [Comp.baseLen, Nat.zero_add] at h
          obtain ⟨r0, hr0, hlen⟩ := ih h
          refine ⟨s ++ r0, ?_, ?_⟩
          · rw [applyGo_insert, hr0]; rfl
          · rw [targetSum_cons]; simp [Comp.targetLen]; omega
      | delete n =>
          rw [baseSum_cons] at h
          simp only [Comp.baseLen] at h
          have hn : n ≤ d.length := by omega
          obtain ⟨r0, hr0, hlen⟩ := ih (show (d.drop n).length = baseSum t by simp; omega)
          refine ⟨r0, ?_, ?_⟩
          · rw [applyGo_delete, if_pos hn, hr0]
          · rw [targetSum_cons]; simpa [Comp.targetLen] using hlen

theorem applyGo_none {l : List Comp} {d : List Char} (h : d.length ≠ baseSum l) :
    applyGo l d = none := by
  cases hr : applyGo l d with
  | none => rfl
  | some r => exact absurd (applyGo_length hr).1 h

theorem applyGo_retain_retain (m n : Nat) (t : List Comp) (d : List Char) :
    applyGo (.retain m :: .retain n :: t) d = applyGo (.retain (m + n) :: t) d := by
  rw [applyGo_retain, applyGo_retain, applyGo_retain]
  by_cases h1 : m ≤ d.length
  · by_cases h2 : m + n ≤ d.length
    · have h3 : n ≤ (d.drop m).length := by simp; omega
      rw [if_pos h1, if_pos h2, if_pos h3, List.drop_drop, Option.map_map]
      cases applyGo t (d.drop (m + n)) with
      | none => simp
      | some r => simp [List.take_add, List.append_assoc]
    · have h3 : ¬ n ≤ (d.drop m).length := by simp; omega
      rw [if_pos h1, if_neg h2, if_neg h3]
      simp
  · have h2 : ¬ m + n ≤ d.length := by omega
    rw [if_neg h1, if_neg h2]

theorem applyGo_delete_delete (m n : Nat) (t : List Comp) (d : List Char) :
    applyGo (.delete m :: .delete n :: t) d = applyGo (.delete (m + n) :: t) d := by
  rw [applyGo_delete, applyGo_delete, applyGo_delete]
  by_cases h1 : m ≤ d.length
  · by_cases h2 : m + n ≤ d.length
    · have h3 : n ≤ (d.drop m).length := by simp; omega
      rw [if_pos h1, if_pos h2, if_pos h3, List.drop_drop]
    · have h3 : ¬ n ≤ (d.drop m).length := by simp; omega
      rw [if_pos h1, if_neg h2, if_neg h3]
  · have h2 : ¬ m + n ≤ d.length := by omega
    rw [if_neg h1, if_neg h2]

theorem applyGo_insert_insert (s u : List Char) (t : List Comp) (d : List Char) :
    applyGo (.insert s :: .insert u :: t) d = applyGo (.insert (s ++ u) :: t) d := by
  rw [applyGo_insert, applyGo_insert, applyGo_insert]
  cases applyGo t d <;> simp [List.append_assoc]

theorem applyGo_insert_delete_swap (s : List Char) (n : Nat) (t : List Comp)
    (d : List Char) :
    applyGo (.insert s :: .delete n :: t) d = applyGo (.delete n :: .insert s :: t) d := by
  by_cases h : n ≤ d.length <;>
    simp [applyGo_insert, applyGo_delete, h]

theorem applyGo_cons_congr (x : Comp) {l1 l2 : List Comp}
    (h : ∀ d, applyGo l1 d = applyGo l2 d) (d : List Char) :
    applyGo (x :: l1) d = applyGo (x :: l2) d := by
  cases x <;> simp [applyGo_retain, applyGo_insert, applyGo_delete, h]

theorem applyGo_append (l1 l2 : List Comp) (d : List Char) :
    applyGo (l1 ++ l2) d =
      if baseSum l1 ≤ d.length then
        (applyGo l1 (d.take (baseSum l1))).bind
          (fun r1 => (applyGo l2 (d.drop (baseSum l1))).map (fun r2 => r1 ++ r2))
      else none := by
  induction l1 generalizing d with
  | nil =>
      rw [baseSum_nil, List.nil_append, if_pos (Nat.zero_le _)]
      simp only [List.take_zero, List.drop_zero, applyGo_nil, if_pos rfl,
        Option.some_bind]
      cases applyGo l2 d <;> simp
  | cons c t ih =>
      cases c with
      | retain n =>
          rw [List.cons_append, applyGo_retain, baseSum_cons]
          simp only [Comp.baseLen]
          by_cases h2 : n + baseSum t ≤ d.length
          · have h1 : n ≤ d.length := by omega
            have h3 : n ≤ (d.take (n + baseSum t)).length := by
              simp [List.length_take]; omega
            rw [if_pos h1, if_pos h2, ih, applyGo_retain, if_pos h3]
            have e1 : baseSum t ≤ (d.drop n).length := by simp; omega
            rw [if_pos e1, List.drop_drop]
            have e2 : (d.take (n + baseSum t)).take n = d.take n := by
              rw [List.take_take, Nat.min_def, if_pos (by omega)]
            have e3 : (d.take (n + baseSum t)).drop n = (d.drop n).take (baseSum t) := by
              rw [List.take_drop]
            rw [e2, e3]
            cases applyGo t ((d.drop n).take (baseSum t)) with
            | none => simp
            | some r1 =>
                cases applyGo l2 (d.drop (n + baseSum t)) with
                | none => simp
                | some r2 => simp [List.append_assoc]
          · by_cases h1 : n ≤ d.length
            · have e1 : ¬ baseSum t ≤ (d.drop n).length := by simp; omega
              rw [if_pos h1, if_neg h2, ih, if_neg e1]
              simp
            · rw [if_neg h1, if_neg h2]
      | insert s =>
          rw [List.cons_append, applyGo_insert, baseSum_cons]
          simp only [Comp.baseLen, Nat.zero_add]
          by_cases h2 : baseSum t ≤ d.length
          · rw [if_pos h2, ih, if_pos h2, applyGo_insert]
            cases applyGo t (d.take (baseSum t)) with
            | none => simp
            | some r1 =>
                cases applyGo l2 (d.drop (baseSum t)) with
                | none => simp
                | some r2 => simp [List.append_assoc]
          · rw [if_neg h2, ih, if_neg h2]
            simp
      | delete n =>
          rw [List.cons_append, applyGo_delete, baseSum_cons]
          simp only [Comp.baseLen]
          by_cases h2 : n + baseSum t ≤ d.length
          · have h1 : n ≤ d.length := by omega
            have h3 : n ≤ (d.take (n + baseSum t)).length := by
              simp [List.length_take]; omega
            rw [if_pos h1, if_pos h2, ih, applyGo_delete, if_pos h3]
            have e1 : baseSum t ≤ (d.drop n).length := by simp; omega
            rw [if_pos e1, List.drop_drop]
            have e3 : (d.take (n + baseSum t)).drop n = (d.drop n).take (baseSum t) := by
              rw [List.take_drop]
            rw [e3]
          · by_cases h1 : n ≤ d.length
            · have e1 : ¬ baseSum t ≤ (d.drop n).length := by simp; omega
              rw [if_pos h1, if_neg h2, ih, if_neg e1]
            · rw [if_neg h1, if_neg h2]

theorem semEq_baseSum {l1 l2 : List Comp}
    (h : ∀ d, applyGo l1 d = applyGo l2 d) : baseSum l1 = baseSum l2 := by
  obtain ⟨r, hr, -⟩ :=
    applyGo_total l1 (show (List.replicate (baseSum l1) 'a').length = baseSum l1 by simp)
  have h2 : applyGo l2 (List.replicate (baseSum l1) 'a') = some r := by
    rw [← h]; exact hr
  have h3 := (applyGo_length h2).1
  simpa using h3

theorem applyGo_congr_append {l1 l2 : List Comp}
    (h : ∀ d, applyGo l1 d = applyGo l2 d) (l3 : List Comp) (d : List Char) :
    applyGo (l1 ++ l3) d = applyGo (l2 ++ l3) d := by
  rw [applyGo_append, applyGo_append, semEq_baseSum h, h]

theorem compZero_baseLen {c : Comp} (h : compZero c = true) : c.baseLen = 0 := by
  cases c <;> simp_all [compZero, Comp.baseLen, List.isEmpty_iff]

theorem compZero_targetLen {c : Comp} (h : compZero c = true) : c.targetLen = 0 := by
  cases c <;> simp_all [compZero, Comp.targetLen, List.isEmpty_iff]

theorem addOp_zero (ops : List Comp) {c : Comp} (h : compZero c = true) :
    addOp ops c = ops := by
  rw [addOp.eq_def, if_pos h]

theorem addOp_baseSum (ops : List Comp) (c : Comp) :
    baseSum (addOp ops c) = baseSum ops + c.baseLen := by
  induction ops, c using addOp.induct with
  | case1 t c hz =>
      rw [addOp_zero t hz, compZero_baseLen hz]
      omega
  | case2 c hz =>
      cases c <;> simp_all [addOp, compZero, baseSum_cons, baseSum_nil, Comp.baseLen]
  | case3 m n hz =>
      simp_all [addOp, compZero, baseSum_cons, baseSum_nil, Comp.baseLen] <;> omega
  | case4 s u hz =>
      simp_all [addOp, compZero, baseSum_cons, baseSum_nil, Comp.baseLen]
  | case5 m n hz =>
      simp_all [addOp, compZero, baseSum_cons, baseSum_nil, Comp.baseLen] <;> omega
  | case6 s n hz =>
      simp_all [addOp, compZero, baseSum_cons, baseSum_nil, Comp.baseLen] <;> omega
  | case7 b c hne hz =>
      cases b <;> cases c <;>
        simp_all [addOp, compZero, baseSum_cons, baseSum_nil, Comp.baseLen] <;> omega
  | case8 a m n hz =>
      cases a <;>
        simp_all [addOp, compZero, baseSum_cons, baseSum_nil, Comp.baseLen] <;> omega
  | case9 a s u hz =>
      cases a <;>
        simp_all [addOp, compZero, baseSum_cons, baseSum_nil, Comp.baseLen] <;> omega
  | case10 a m n hz =>
      cases a <;>
        simp_all [addOp, compZero, baseSum_cons, baseSum_nil, Comp.baseLen] <;> omega
  | case11 s u n hz =>
      simp_all [addOp, compZero, baseSum_cons, baseSum_nil, Comp.baseLen] <;> omega
  | case12 a s n hne hz =>
      cases a <;>
        simp_all [addOp, compZero, baseSum_cons, baseSum_nil, Comp.baseLen] <;> omega
  | case13 a b c hne1 hne2 hne3 hz =>
      cases a <;> cases b <;> cases c <;>
        simp_all [addOp, compZero, baseSum_cons, baseSum_nil, Comp.baseLen] <;> omega
  | case14 x rest c h1 h2 h3 h4 h5 h6 h7 hz ih =>
      cases x <;>
        simp_all [addOp, compZero, baseSum_cons, baseSum_nil, Comp.baseLen] <;> omega

theorem addOp_targetSum (ops : List Comp) (c : Comp) :
    targetSum (addOp ops c) = targetSum ops + c.targetLen := by
  induction ops, c using addOp.induct with
  | case1 t c hz =>
      rw [addOp_zero t hz, compZero_targetLen hz]
      omega
  | case2 c hz =>
      cases c <;> simp_all [addOp, compZero, targetSum_cons, targetSum_nil, Comp.targetLen]
  | case3 m n hz =>
      simp_all [addOp, compZero, targetSum_cons, targetSum_nil, Comp.targetLen] <;> omega
  | case4 s u hz =>
      simp_all [addOp, compZero, targetSum_cons, targetSum_nil, Comp.targetLen] <;> omega
  | case5 m n hz =>
      simp_all [addOp, compZero, targetSum_cons, targetSum_nil, Comp.targetLen]
  | case6 s n hz =>
      simp_all [addOp, compZero, targetSum_cons, targetSum_nil, Comp.targetLen] <;> omega
  | case7 b c hne hz =>
      cases b <;> cases c <;>
        simp_all [addOp, compZero, targetSum_cons, targetSum_nil, Comp.targetLen] <;> omega
  | case8 a m n hz =>
      cases a <;>
        simp_all [addOp, compZero, targetSum_cons, targetSum_nil, Comp.targetLen] <;> omega
  | case9 a s u hz =>
      cases a <;>
        simp_all [addOp, compZero, targetSum_cons, targetSum_nil, Comp.targetLen] <;> omega
  | case10 a m n hz =>
      cases a <;>
        simp_all [addOp, compZero, targetSum_cons, targetSum_nil, Comp.targetLen] <;> omega
  | case11 s u n hz =>
      simp_all [addOp, compZero, targetSum_cons, targetSum_nil, Comp.targetLen] <;> omega
  | case12 a s n hne hz =>
      cases a <;>
        simp_all [addOp, compZero, targetSum_cons, targetSum_nil, Comp.targetLen] <;> omega
  | case13 a b c hne1 hne2 hne3 hz =>
      cases a <;> cases b <;> cases c <;>
        simp_all [addOp, compZero, targetSum_cons, targetSum_nil, Comp.targetLen] <;> omega
  | case14 x rest c h1 h2 h3 h4 h5 h6 h7 hz ih =>
      cases x <;>
        simp_all [addOp, compZero, targetSum_cons, targetSum_nil, Comp.targetLen] <;> omega

theorem applyGo_singleton_zero {c : Comp} (hc : compZero c = true) (x : List Char) :
    applyGo [c] x = if x = [] then some [] else none := by
  cases c <;>
    simp_all [compZero, List.isEmpty_iff, applyGo_retain, applyGo_insert,
      applyGo_delete, applyGo_nil] <;>
  split <;> simp

theorem applyGo_snoc_zero (t : List Comp) {c : Comp} (hc : compZero c = true)
    (d : List Char) : applyGo (t ++ [c]) d = applyGo t d := by
  rw [applyGo_append]
  by_cases h1 : baseSum t ≤ d.length
  · by_cases h2 : d.length = baseSum t
    · have ht : d.take (baseSum t) = d := by rw [← h2, List.take_length]
      have hd : d.drop (baseSum t) = [] := by rw [← h2, List.drop_length]
      rw [if_pos h1, ht, hd, applyGo_singleton_zero hc]
      cases applyGo t d <;> simp
    · obtain ⟨r1, hr1, -⟩ := applyGo_total t
        (show (d.take (baseSum t)).length = baseSum t by simp [List.length_take]; omega)
      rw [if_pos h1, hr1, applyGo_singleton_zero hc, applyGo_none h2]
      have hne : d.drop (baseSum t) ≠ [] := by
        intro he
        have hl := congrArg List.length he
        simp at hl
        omega
      simp [hne]
  · rw [if_neg h1, applyGo_none (by omega)]

theorem addOp_sem (ops : List Comp) (c : Comp) :
    ∀ d, applyGo (addOp ops c) d = applyGo (ops ++ [c]) d := by
  induction ops, c using addOp.induct with
  | case1 t c hz =>
      intro d
      rw [addOp_zero t hz, applyGo_snoc_zero t hz]
  | case2 c hz =>
      have ha : addOp [] c = [c] := by cases c <;> simp_all [addOp, compZero]
      intro d
      rw [ha, List.nil_append]
  | case3 m n hz =>
      have ha : addOp [.retain m] (.retain n) = [.retain (m + n)] := by
        simp_all [addOp, compZero]
      intro d
      rw [ha]
      exact (applyGo_retain_retain m n [] d).symm
  | case4 s u hz =>
      have ha : addOp [.insert s] (.insert u) = [.insert (s ++ u)] := by
        simp_all [addOp, compZero]
      intro d
      rw [ha]
      exact (applyGo_insert_insert s u [] d).symm
  | case5 m n hz =>
      have ha : addOp [.delete m] (.delete n) = [.delete (m + n)] := by
        simp_all [addOp, compZero]
      intro d
      rw [ha]
      exact (applyGo_delete_delete m n [] d).symm
  | case6 s n hz =>
      have ha : addOp [.insert s] (.delete n) = [.delete n, .insert s] := by
        simp_all [addOp, compZero]
      intro d
      rw [ha]
      exact (applyGo_insert_delete_swap s n [] d).symm
  | case7 b c hne1 hne2 hne3 hne4 hz =>
      have ha : addOp [b] c = [b, c] := by
        cases b <;> cases c <;> simp_all [addOp, compZero]
      intro d
      rw [ha]
      rfl
  | case8 a m n hz =>
      have ha : addOp [a, .retain m] (.retain n) = [a, .retain (m + n)] := by
        cases a <;> simp_all [addOp, compZero]
      intro d
      rw [ha]
      exact applyGo_cons_congr a (fun d0 => (applyGo_retain_retain m n [] d0).symm) d
  | case9 a s u hz =>
      have ha : addOp [a, .insert s] (.insert u) = [a, .insert (s ++ u)] := by
        cases a <;> simp_all [addOp, compZero]
      intro d
      rw [ha]
      exact applyGo_cons_congr a (fun d0 => (applyGo_insert_insert s u [] d0).symm) d
  | case10 a m n hz =>
      have ha : addOp [a, .delete m] (.delete n) = [a, .delete (m + n)] := by
        cases a <;> simp_all [addOp, compZero]
      intro d
      rw [ha]
      exact applyGo_cons_congr a (fun d0 => (applyGo_delete_delete m n [] d0).symm) d
  | case11 s u n hz =>
      have ha : addOp [.insert s, .insert u] (.delete n) =
          [.insert (s ++ u), .delete n] := by
        simp_all [addOp, compZero]
      intro d
      rw [ha]
      exact (applyGo_insert_insert s u [.delete n] d).symm
  | case12 a s n hne hz =>
      have ha : addOp [a, .insert s] (.delete n) = [a, .delete n, .insert s] := by
        cases a <;> simp_all [addOp, compZero]
      intro d
      rw [ha]
      exact applyGo_cons_congr a (fun d0 => (applyGo_insert_delete_swap s n [] d0).symm) d
  | case13 a b c hne1 hne2 hne3 hne4 hne5 hz =>
      have ha : addOp [a, b] c = [a, b, c] := by
        cases a <;> cases b <;> cases c <;> simp_all [addOp, compZero]
      intro d
      rw [ha]
      rfl
  | case14 x rest c h1 h2 h3 h4 h5 h6 h7 h8 h9 h10 h11 hz ih =>
      match rest, h5, h11 with
      | [], h5, _ => exact absurd rfl h5
      | [b], _, h11 => exact absurd rfl (h11 b)
      | y :: z :: rest3, _, _ =>
        have ha : addOp (x :: y :: z :: rest3) c = x :: addOp (y :: z :: rest3) c := by
          rw [addOp.eq_def, if_neg hz]
          cases x <;> cases y <;> cases z <;> cases c <;> rfl
        intro d
        rw [ha, List.cons_append]
        exact applyGo_cons_congr x (fun d0 => ih d0) d

theorem semEq_targetSum {l1 l2 : List Comp}
    (h : ∀ d, applyGo l1 d = applyGo l2 d) : targetSum l1 = targetSum l2 := by
  obtain ⟨r, hr, hlen⟩ := applyGo_total l1
    (show (List.replicate (baseSum l1) 'a').length = baseSum l1 by simp)
  have h2 : applyGo l2 (List.replicate (baseSum l1) 'a') = some r := by
    rw [← h]; exact hr
  have h3 := (applyGo_length h2).2
  omega

theorem buildStep_baseLength (o : TextOperation) (c : Comp) :
    (buildStep o c).baseLength = o.baseLength + c.baseLen ∧
    (buildStep o c).targetLength = o.targetLength + c.targetLen := by
  cases c <;>
    simp only [buildStep, TextOperation.retain, TextOperation.insert,
      TextOperation.delete, Comp.baseLen, Comp.targetLen] <;>
    split <;> simp_all

theorem buildStep_ops (o : TextOperation) (c : Comp) (d : List Char) :
    applyGo (buildStep o c).ops d = applyGo (o.ops ++ [c]) d := by
  cases c with
  | retain n =>
      by_cases hn : n = 0
      · subst hn
        simp only [buildStep, TextOperation.retain, if_pos rfl]
        rw [applyGo_snoc_zero o.ops (show compZero (.retain 0) = true by simp [compZero])]
        simp
      · simp only [buildStep, TextOperation.retain, if_neg hn]
        exact addOp_sem o.ops (.retain n) d
  | insert s =>
      by_cases hs : s = []
      · subst hs
        simp only [buildStep, TextOperation.insert, if_pos rfl]
        rw [applyGo_snoc_zero o.ops
          (show compZero (.insert []) = true by simp [compZero])]
        simp
      · simp only [buildStep, TextOperation.insert, if_neg hs]
        exact addOp_sem o.ops (.insert s) d
  | delete n =>
      by_cases hn : n = 0
      · subst hn
        simp only [buildStep, TextOperation.delete, if_pos rfl]
        rw [applyGo_snoc_zero o.ops (show compZero (.delete 0) = true by simp [compZero])]
        simp
      · simp only [buildStep, TextOperation.delete, if_neg hn]
        exact addOp_sem o.ops (.delete n) d

theorem foldl_build_baseLength (steps : List Comp) :
    ∀ o : TextOperation,
      (steps.foldl buildStep o).baseLength = o.baseLength + baseSum steps ∧
      (steps.foldl buildStep o).targetLength = o.targetLength + targetSum steps := by
  induction steps with
  | nil => intro o; simp [baseSum_nil, targetSum_nil]
  | cons c t ih =>
      intro o
      simp only [List.foldl_cons]
      obtain ⟨h1, h2⟩ := buildStep_baseLength o c
      obtain ⟨h3, h4⟩ := ih (buildStep o c)
      rw [baseSum_cons, targetSum_cons, h3, h4, h1, h2]
      omega

theorem build_baseLength (steps : List Comp) :
    (build steps).baseLength = baseSum steps := by
  have h := (foldl_build_baseLength steps TextOperation.empty).1
  simpa [build, TextOperation.empty] using h

theorem build_targetLength (steps : List Comp) :
    (build steps).targetLength = targetSum steps := by
  have h := (foldl_build_baseLength steps TextOperation.empty).2
  simpa [build, TextOperation.empty] using h

theorem foldl_build_sem (steps : List Comp) :
    ∀ (o : TextOperation) (m : List Comp),
      (∀ d, applyGo o.ops d = applyGo m d) →
      ∀ d, applyGo (steps.foldl buildStep o).ops d = applyGo (m ++ steps) d := by
  induction steps with
  | nil =>
      intro o m h d
      simpa using h d
  | cons c t ih =>
      intro o m h d
      simp only [List.foldl_cons]
      have hstep : ∀ d0, applyGo (buildStep o c).ops d0 = applyGo (m ++ [c]) d0 := by
        intro d0
        rw [buildStep_ops]
        exact applyGo_congr_append h [c] d0
      have hmain := ih (buildStep o c) (m ++ [c]) hstep d
      rw [hmain, List.append_assoc]
      rfl

theorem build_sem (steps : List Comp) (d : List Char) :
    applyGo (build steps).ops d = applyGo steps d := by
  have h := foldl_build_sem steps TextOperation.empty [] (fun d0 => rfl) d
  simpa [build] using h

theorem build_ops_baseSum (steps : List Comp) :
    baseSum (build steps).ops = baseSum steps :=
  semEq_baseSum (fun d => build_sem steps d)

theorem build_ops_targetSum (steps : List Comp) :
    targetSum (build steps).ops = targetSum steps :=
  semEq_targetSum (fun d => build_sem steps d)

theorem baseSum_invertSteps (l : List Comp) :
    ∀ d : List Char, baseSum (invertSteps l d) = targetSum l := by
  induction l with
  | nil => intro d; rfl
  | cons c t ih =>
      intro d
      cases c <;>
        simp [invertSteps, baseSum_cons, targetSum_cons, Comp.baseLen,
          Comp.targetLen, ih]

theorem targetSum_invertSteps (l : List Comp) :
    ∀ d : List Char, d.length = baseSum l → targetSum (invertSteps l d) = baseSum l := by
  induction l with
  | nil => intro d h; rfl
  | cons c t ih =>
      intro d h
      cases c with
      | retain n =>
          rw [baseSum_cons] at h ⊢
          simp only [Comp.baseLen] at h ⊢
          have ht := ih (d.drop n) (by simp; omega)
          simp [invertSteps, targetSum_cons, Comp.targetLen, ht]
      | insert s =>
          rw [baseSum_cons] at h ⊢
          simp only [Comp.baseLen, Nat.zero_add] at h ⊢
          have ht := ih d h
          simp [invertSteps, targetSum_cons, Comp.targetLen, ht]
      | delete n =>
          rw [baseSum_cons] at h ⊢
          simp only [Comp.baseLen] at h ⊢
          have ht := ih (d.drop n) (by simp; omega)
          simp [invertSteps, targetSum_cons, Comp.targetLen, ht, List.length_take]
          omega

theorem invert_sem (l : List Comp) :
    ∀ (d r : List Char), applyGo l d = some r → applyGo (invertSteps l d) r = some d := by
  induction l with
  | nil =>
      intro d r h
      rw [applyGo_nil] at h
      split at h
      · rename_i hd
        obtain rfl := Option.some_injective _ h
        subst hd
        rfl
      · exact absurd h (by simp)
  | cons c t ih =>
      intro d r h
      cases c with
      | retain n =>
          rw [applyGo_retain] at h
          split at h
          · rename_i hn
            obtain ⟨r0, hr0, rfl⟩ := Option.map_eq_some'.mp h
            have h1 : (d.take n).length = n := by simp [hn]
            simp only [invertSteps, applyGo_retain]
            have hg : n ≤ (d.take n ++ r0).length := by simp [h1]
            rw [if_pos hg, List.take_left' h1, List.drop_left' h1,
              ih (d.drop n) r0 hr0]
            simp [List.take_append_drop]
          · exact absurd h (by simp)
      | insert s =>
          rw [applyGo_insert] at h
          obtain ⟨r0, hr0, rfl⟩ := Option.map_eq_some'.mp h
          simp only [invertSteps, applyGo_delete]
          have hg : s.length ≤ (s ++ r0).length := by simp
          rw [if_pos hg, List.drop_left, ih d r0 hr0]
      | delete n =>
          rw [applyGo_delete] at h
          split at h
          · rename_i hn
            simp only [invertSteps, applyGo_insert]
            rw [ih (d.drop n) r h]
            simp [List.take_append_drop]
          · exact absurd h (by simp)

theorem apply_some_baseLength {o : TextOperation} {d r : List Char}
    (h : o.apply d = some r) : d.length = o.baseLength := by
  unfold TextOperation.apply at h
  split at h
  · assumption
  · exact absurd h (by simp)

theorem reconstruct_snoc (init : List Char) (h1 : List TextOperation)
    (op : TextOperation) :
    reconstruct init (h1 ++ [op]) = (reconstruct init h1).bind op.apply := by
  simp [reconstruct, List.foldl_append]

theorem reconstruct_foldl_none (t : List TextOperation) :
    List.foldl (fun (d : Option (List Char)) (op : TextOperation) => d.bind op.apply)
      none t = none := by
  induction t with
  | nil => rfl
  | cons op t ih => simpa using ih

theorem reconstruct_cons (init : List Char) (op : TextOperation)
    (t : List TextOperation) :
    reconstruct init (op :: t) =
      match op.apply init with
      | some d1 => reconstruct d1 t
      | none => none := by
  cases hop : op.apply init with
  | none => simp [reconstruct, hop, reconstruct_foldl_none]
  | some d1 => simp [reconstruct, hop]

theorem reconstruct_index (hist : List TextOperation) :
    ∀ (init r : List Char), reconstruct init hist = some r →
      ∀ i (h : i < hist.length), ∃ di, reconstruct init (hist.take i) = some di ∧
        (hist.get ⟨i, h⟩).baseLength = di.length := by
  induction hist with
  | nil =>
      intro init r h i hi
      exact absurd hi (by simp)
  | cons op t ih =>
      intro init r h i hi
      rw [reconstruct_cons] at h
      cases hop : op.apply init with
      | none => rw [hop] at h; exact absurd h (by simp)
      | some d1 =>
          rw [hop] at h
          cases i with
          | zero =>
              refine ⟨init, by simp [reconstruct], ?_⟩
              have hb := apply_some_baseLength hop
              simp [hb]
          | succ j =>
              have hj : j < t.length := by simpa using hi
              obtain ⟨di, hdi, hbl⟩ := ih d1 r h j hj
              refine ⟨di, ?_, ?_⟩
              · rw [List.take_succ_cons, reconstruct_cons, hop]
                exact hdi
              · simpa using hbl

theorem pushHandler_inv {st : ServerState} (rev : Int) (wire : List JsonComp)
    (h1 : st.operationHistory.length = st.currentRevision)
    (h2 : reconstruct [] st.operationHistory = some st.documentState) :
    (pushHandler st rev wire).1.operationHistory.length =
        (pushHandler st rev wire).1.currentRevision ∧
      reconstruct [] (pushHandler st rev wire).1.operationHistory =
        some (pushHandler st rev wire).1.documentState := by
  unfold pushHandler
  cases hf : TextOperation.fromJSON wire with
  | none => exact ⟨h1, h2⟩
  | some clientOp =>
      simp only []
      split
      · exact ⟨h1, h2⟩
      · cases ht : transformLoop clientOp (st.operationHistory.drop rev.toNat) with
        | none => exact ⟨h1, h2⟩
        | some top =>
            simp only []
            cases ha : top.apply st.documentState with
            | none => exact ⟨h1, h2⟩
            | some newDoc =>
                constructor
                · simp [h1]
                · simp [reconstruct_snoc, h2, ha]

theorem processPushes_inv (msgs : List (Int × List JsonComp)) :
    ∀ st : ServerState,
      st.operationHistory.length = st.currentRevision →
      reconstruct [] st.operationHistory = some st.documentState →
      (processPushes st msgs).operationHistory.length =
          (processPushes st msgs).currentRevision ∧
        reconstruct [] (processPushes st msgs).operationHistory =
          some (processPushes st msgs).documentState := by
  induction msgs with
  | nil => intro st hh hr; exact ⟨hh, hr⟩
  | cons m t ih =>
      intro st hh hr
      obtain ⟨hh2, hr2⟩ := pushHandler_inv m.1 m.2 hh hr
      exact ih (pushHandler st m.1 m.2).1 hh2 hr2

theorem fromJSONGo_isSome (l : List JsonComp) :
    ∀ o : TextOperation, (fromJSONGo o l).isSome = l.all validWire := by
  induction l with
  | nil => intro o; rfl
  | cons c t ih =>
      intro o
      cases c with
      | num q =>
          rcases lt_trichotomy q 0 with hq | hq | hq
          · by_cases hd : q.den = 1
            · simp [fromJSONGo, validWire, hq, hq.ne, not_lt.mpr hq.le, hd, ih]
            · simp [fromJSONGo, validWire, hq, hq.ne, not_lt.mpr hq.le, hd]
          · subst hq
            simp [fromJSONGo, validWire]
          · by_cases hd : q.den = 1
            · simp [fromJSONGo, validWire, hq, hq.ne', hd, ih]
            · simp [fromJSONGo, validWire, hq, hq.ne', hd]
      | str s => simp [fromJSONGo, validWire, ih]
      | other => simp [fromJSONGo, validWire]

/-- C1: the claim states that for builder-made operations with
a.targetLength = b.baseLength and a document of a's base length,
a.compose(b) raises no error and agrees with sequential application. The
code contradicts it (and its own doc comment at src/ot.ts line 284 and the
compose unit tests of src/ot.test.ts): compose emits an insert head of the
first operation without consuming anything of the second, so for
a = insert("x"), b = delete(1), doc = "", compose throws "first operation is
too short" even though b.apply(a.apply("")) = "" is defined. -/
theorem C1_compose_error_eval :
    TextOperation.compose (build [Comp.insert ['x']]) (build [Comp.delete 1]) = none ∧
      ((build [Comp.insert ['x']]).apply []).bind
        (fun d1 => (build [Comp.delete 1]).apply d1) = some [] := by
  constructor
  · have ha : build [Comp.insert ['x']] = ⟨[Comp.insert ['x']], 0, 1⟩ := by decide
    have hb : build [Comp.delete 1] = ⟨[Comp.delete 1], 1, 0⟩ := by decide
    rw [ha, hb]
    simp [TextOperation.compose, composeOps]
  · decide

/-- C2: the claim states transform convergence through compose. The code
contradicts it: for a = insert("x"), b = insert("y") over the empty document,
transform(a, b) itself succeeds, but a.compose(b-prime) throws "first
operation is too short" (the compose insert bug of C1), so neither composed
result is defined. This also contradicts the repository's own test
"should satisfy the transform invariant" in src/ot.test.ts. -/
theorem C2_transform_compose_error_eval :
    TextOperation.transform (build [Comp.insert ['x']]) (build [Comp.insert ['y']]) =
        some (build [Comp.insert ['x'], Comp.retain 1],
          build [Comp.retain 1, Comp.insert ['y']]) ∧
      TextOperation.compose (build [Comp.insert ['x']])
        (build [Comp.retain 1, Comp.insert ['y']]) = none := by
  constructor
  · have ha : build [Comp.insert ['x']] = ⟨[Comp.insert ['x']], 0, 1⟩ := by decide
    have hb : build [Comp.insert ['y']] = ⟨[Comp.insert ['y']], 0, 1⟩ := by decide
    rw [ha, hb]
    simp [TextOperation.transform, transformOps]
  · have ha : build [Comp.insert ['x']] = ⟨[Comp.insert ['x']], 0, 1⟩ := by decide
    have hb : build [Comp.retain 1, Comp.insert ['y']] =
        ⟨[Comp.retain 1, Comp.insert ['y']], 1, 2⟩ := by decide
    rw [ha, hb]
    simp [TextOperation.compose, composeOps]

/-- C3: the claim states every builder-made operation is canonical. The code
contradicts it (and the class doc comment at src/ot.ts lines 38-43): the
builder's insert method never moves an insert before a pending delete, so
delete(1).insert("a") produces the ops array [-1, "a"], a Delete immediately
followed by an Insert; and delete(1).insert("a").delete(1) produces
[-1, -1, "a"], two adjacent Deletes. -/
theorem C3_builder_canonical_violation :
    (build [Comp.delete 1, Comp.insert ['a']]).ops =
        [Comp.delete 1, Comp.insert ['a']] ∧
      canonical (build [Comp.delete 1, Comp.insert ['a']]).ops = false ∧
      (build [Comp.delete 1, Comp.insert ['a'], Comp.delete 1]).ops =
        [Comp.delete 1, Comp.delete 1, Comp.insert ['a']] ∧
      canonical (build [Comp.delete 1, Comp.insert ['a'], Comp.delete 1]).ops =
        false := by
  decide

/-- C4: for a builder-made operation, apply succeeds exactly on documents of
the operation's base length, and the result has the operation's target
length; on any other document it fails with the length-mismatch error. -/
theorem C4_apply_length (steps : List Comp) (doc : List Char) :
    (doc.length = (build steps).baseLength →
      ∃ r, (build steps).apply doc = some r ∧
        r.length = (build steps).targetLength) ∧
    (doc.length ≠ (build steps).baseLength → (build steps).apply doc = none) := by
  constructor
  · intro h
    have hb : doc.length = baseSum (build steps).ops := by
      rw [build_ops_baseSum, ← build_baseLength]
      exact h
    obtain ⟨r, hr, hlen⟩ := applyGo_total (build steps).ops hb
    refine ⟨r, ?_, ?_⟩
    · unfold TextOperation.apply
      rw [if_pos h]
      exact hr
    · rw [build_targetLength, ← build_ops_targetSum]
      exact hlen
  · intro h
    unfold TextOperation.apply
    rw [if_neg h]

/-- C4 witness: the theorem applied to retain(1).insert("z").delete(1) on the
two-character document "ab". -/
theorem C4_apply_length_witness :
    ∃ r, (build [Comp.retain 1, Comp.insert ['z'], Comp.delete 1]).apply
          ['a', 'b'] = some r ∧
        r.length =
          (build [Comp.retain 1, Comp.insert ['z'], Comp.delete 1]).targetLength :=
  (C4_apply_length [Comp.retain 1, Comp.insert ['z'], Comp.delete 1]
    ['a', 'b']).1 (by decide)

/-- C5: for a builder-made operation and a document of its base length, the
inverse swaps base and target lengths and applying it after the operation
restores the document. -/
theorem C5_invert_roundtrip (steps : List Comp) (doc : List Char)
    (h : doc.length = (build steps).baseLength) :
    ∃ op', (build steps).invert doc = some op' ∧
      op'.baseLength = (build steps).targetLength ∧
      op'.targetLength = (build steps).baseLength ∧
      ((build steps).apply doc).bind (fun d1 => op'.apply d1) = some doc := by
  have hb : doc.length = baseSum (build steps).ops := by
    rw [build_ops_baseSum, ← build_baseLength]
    exact h
  obtain ⟨r, hr, hlen⟩ := applyGo_total (build steps).ops hb
  have happly : (build steps).apply doc = some r := by
    unfold TextOperation.apply
    rw [if_pos h]
    exact hr
  have hinv : (build steps).invert doc =
      some (build (invertSteps (build steps).ops doc)) := by
    unfold TextOperation.invert
    rw [if_pos h]
  refine ⟨build (invertSteps (build steps).ops doc), hinv, ?_, ?_, ?_⟩
  · rw [build_baseLength (invertSteps (build steps).ops doc),
      baseSum_invertSteps (build steps).ops doc, build_ops_targetSum steps,
      build_targetLength steps]
  · rw [build_targetLength (invertSteps (build steps).ops doc),
      targetSum_invertSteps (build steps).ops doc hb, build_ops_baseSum steps,
      build_baseLength steps]
  · rw [happly, Option.some_bind]
    unfold TextOperation.apply
    have hrlen : r.length = (build (invertSteps (build steps).ops doc)).baseLength := by
      rw [build_baseLength, baseSum_invertSteps]
      exact hlen
    rw [if_pos hrlen, build_sem]
    exact invert_sem (build steps).ops doc r hr

/-- C5 witness: the theorem applied to retain(1).delete(1).insert("z") on the
two-character document "ab". -/
theorem C5_invert_roundtrip_witness :
    ∃ op', (build [Comp.retain 1, Comp.delete 1, Comp.insert ['z']]).invert
          ['a', 'b'] = some op' ∧
      op'.baseLength =
        (build [Comp.retain 1, Comp.delete 1, Comp.insert ['z']]).targetLength ∧
      op'.targetLength =
        (build [Comp.retain 1, Comp.delete 1, Comp.insert ['z']]).baseLength ∧
      ((build [Comp.retain 1, Comp.delete 1, Comp.insert ['z']]).apply
          ['a', 'b']).bind (fun d1 => op'.apply d1) = some ['a', 'b'] :=
  C5_invert_roundtrip [Comp.retain 1, Comp.delete 1, Comp.insert ['z']]
    ['a', 'b'] (by decide)

/-- C6: transforming two pure inserts over the empty document puts the first
operation's insert first in both result orders: both composed applications
produce s followed by t. -/
theorem C6_insert_tiebreak (s t : List Char) (hs : s ≠ []) (ht : t ≠ []) :
    ∃ p, TextOperation.transform (build [Comp.insert s]) (build [Comp.insert t]) =
        some p ∧
      ((build [Comp.insert s]).apply []).bind (fun d1 => p.2.apply d1) =
        some (s ++ t) ∧
      ((build [Comp.insert t]).apply []).bind (fun d1 => p.1.apply d1) =
        some (s ++ t) := by
  have hts : t.length ≠ 0 := by simpa [List.length_eq_zero] using ht
  have hss : s.length ≠ 0 := by simpa [List.length_eq_zero] using hs
  have ha : build [Comp.insert s] = ⟨[Comp.insert s], 0, s.length⟩ := by
    simp [build, buildStep, TextOperation.insert, hs, addOp, compZero,
      List.isEmpty_iff, TextOperation.empty]
  have hb : build [Comp.insert t] = ⟨[Comp.insert t], 0, t.length⟩ := by
    simp [build, buildStep, TextOperation.insert, ht, addOp, compZero,
      List.isEmpty_iff, TextOperation.empty]
  have hpa : build [Comp.insert s, Comp.retain t.length] =
      ⟨[Comp.insert s, Comp.retain t.length], t.length, s.length + t.length⟩ := by
    simp [build, buildStep, TextOperation.insert, TextOperation.retain, hs, hts,
      addOp, compZero, List.isEmpty_iff, TextOperation.empty]
  have hpb : build [Comp.retain s.length, Comp.insert t] =
      ⟨[Comp.retain s.length, Comp.insert t], s.length, s.length + t.length⟩ := by
    simp [build, buildStep, TextOperation.insert, TextOperation.retain, ht, hss,
      addOp, compZero, List.isEmpty_iff, TextOperation.empty]
  have htr : transformOps [Comp.insert s] [Comp.insert t] =
      some ([Comp.insert s, Comp.retain t.length],
        [Comp.retain s.length, Comp.insert t]) := by
    simp [transformOps]
  refine ⟨(⟨[Comp.insert s, Comp.retain t.length], t.length,
      s.length + t.length⟩,
    ⟨[Comp.retain s.length, Comp.insert t], s.length, s.length + t.length⟩), ?_, ?_, ?_⟩
  · rw [ha, hb]
    simp [TextOperation.transform, htr, hpa, hpb]
  · rw [ha]
    simp [TextOperation.apply, applyGo_insert, applyGo_nil, applyGo_retain,
      List.take_length, List.drop_length]
  · rw [hb]
    simp [TextOperation.apply, applyGo_insert, applyGo_nil, applyGo_retain,
      List.take_length, List.drop_length]

/-- C6 witness: the theorem applied to the single-character inserts "a"
and "b". -/
theorem C6_insert_tiebreak_witness :
    ∃ p, TextOperation.transform (build [Comp.insert ['a']])
          (build [Comp.insert ['b']]) = some p ∧
      ((build [Comp.insert ['a']]).apply []).bind (fun d1 => p.2.apply d1) =
        some (['a'] ++ ['b']) ∧
      ((build [Comp.insert ['b']]).apply []).bind (fun d1 => p.1.apply d1) =
        some (['a'] ++ ['b']) :=
  C6_insert_tiebreak ['a'] ['b'] (by decide) (by decide)

/-- C7 counterexample: the claim as stated says the (Delete, Delete) pairing
of compose emits nothing, so composing delete(1).insert("x") with delete(1)
would emit only the insert; the code instead emits a Delete of the minimum
length, and the composed component list keeps that delete. -/
theorem C7_delete_delete_counterexample :
    composeOps [Comp.delete 1, Comp.insert ['x']] [Comp.delete 1] =
        some [Comp.delete 1, Comp.insert ['x']] ∧
      composeOps [Comp.delete 1, Comp.insert ['x']] [Comp.delete 1] ≠
        some [Comp.insert ['x']] := by
  constructor <;> simp [composeOps]

/-- C7 as amended: when both compose heads are deletes of positive lengths
m1 and m2, the loop emits a Delete of length min(m1, m2) to the composed
output (not nothing), and both sides advance by that minimum, the longer
side keeping a residual delete. -/
theorem C7_compose_delete_delete (m1 m2 : Nat) (t1 t2 : List Comp)
    (h1 : 0 < m1) (h2 : 0 < m2) :
    composeOps (.delete m1 :: t1) (.delete m2 :: t2) =
      (composeOps (if m2 < m1 then .delete (m1 - m2) :: t1 else t1)
          (if m1 < m2 then .delete (m2 - m1) :: t2 else t2)).map
        (fun e => .delete (min m1 m2) :: e) := by
  have hz : ¬ (m1 = 0 ∨ m2 = 0) := by omega
  rcases Nat.lt_trichotomy m1 m2 with h | h | h
  · rw [if_neg (by omega), if_pos h]
    have hmin : min m1 m2 = m1 := Nat.min_eq_left (Nat.le_of_lt h)
    simp [composeOps, hz, h, (by omega : ¬ m2 < m1), hmin]
    exact fun hcon => absurd hcon (by omega)
  · subst h
    rw [if_neg (by omega), if_neg (by omega)]
    have hmin : min m1 m1 = m1 := Nat.min_self m1
    simp [composeOps, hz, hmin]
    exact fun hcon => absurd hcon (by omega)
  · rw [if_pos h, if_neg (by omega)]
    have hmin : min m1 m2 = m2 := Nat.min_eq_right (Nat.le_of_lt h)
    simp [composeOps, hz, h, (by omega : ¬ m1 < m2), hmin]

/-- C7 witness: the amended equation at delete heads of lengths 2 and 1. -/
theorem C7_compose_delete_delete_witness :
    composeOps [Comp.delete 2] [Comp.delete 1] =
      (composeOps [Comp.delete 1] []).map (fun e => Comp.delete 1 :: e) := by
  have h := C7_compose_delete_delete 2 1 [] [] (by decide) (by decide)
  simpa using h

/-- C8: after any sequence of pushes processed from the initial state (empty
document, revision 0, empty history), the history length equals the current
revision, replaying the whole history from the initial content yields the
current document state, and each history entry's base length equals the
length of the document reconstructed at its revision. -/
theorem C8_server_invariant (msgs : List (Int × List JsonComp)) :
    (processPushes serverInit msgs).operationHistory.length =
        (processPushes serverInit msgs).currentRevision ∧
      reconstruct [] (processPushes serverInit msgs).operationHistory =
        some (processPushes serverInit msgs).documentState ∧
      ∀ i (hi : i < (processPushes serverInit msgs).operationHistory.length),
        ∃ di, reconstruct []
            ((processPushes serverInit msgs).operationHistory.take i) = some di ∧
          ((processPushes serverInit msgs).operationHistory.get
            ⟨i, hi⟩).baseLength = di.length := by
  obtain ⟨h1, h2⟩ := processPushes_inv msgs serverInit rfl rfl
  exact ⟨h1, h2, fun i hi => reconstruct_index _ _ _ h2 i hi⟩

/-- C9: whenever the push handler answers with an Error, the server state
(document, revision and history) is left completely unchanged. -/
theorem C9_push_error_state_unchanged (st : ServerState) (rev : Int)
    (wire : List JsonComp) (h : (pushHandler st rev wire).2 = PushOutcome.err) :
    (pushHandler st rev wire).1 = st := by
  unfold pushHandler
  cases hf : TextOperation.fromJSON wire with
  | none => rfl
  | some clientOp =>
      simp only []
      by_cases hc : rev < 0 ∨ (st.currentRevision : Int) < rev
      · rw [if_pos hc]
      · rw [if_neg hc]
        cases ht : transformLoop clientOp (st.operationHistory.drop rev.toNat) with
        | none => rfl
        | some top =>
            simp only []
            cases ha : top.apply st.documentState with
            | none => rfl
            | some newDoc =>
                exfalso
                unfold pushHandler at h
                rw [hf] at h
                simp only [] at h
                rw [if_neg hc, ht] at h
                simp only [] at h
                rw [ha] at h
                exact absurd h (by simp)

/-- C9 witness: a push with the out-of-range revision -1 against the initial
state is answered with an error and leaves the state unchanged. -/
theorem C9_push_error_state_unchanged_witness :
    (pushHandler serverInit (-1) []).1 = serverInit :=
  C9_push_error_state_unchanged serverInit (-1) [] (by decide)

/-- C10: fromJSON succeeds exactly on arrays whose entries are all non-zero
integer numbers or strings; an entry that is the number 0, a non-integer
number, or neither a number nor a string makes it throw. -/
theorem C10_fromJSON_accepts (l : List JsonComp) :
    (TextOperation.fromJSON l).isSome = true ↔ ∀ c ∈ l, validWire c = true := by
  unfold TextOperation.fromJSON
  rw [fromJSONGo_isSome l TextOperation.empty]
  simp [List.all_eq_true]
